import Mathlib

/-!
Verification of the source enumerator of AICodeReader.

The development shallowly embeds the Go code of `pkgs/utils/get_source_list.go`
and of the self-contained variant of the same package (the file providing
`loadGitignoreRules`, `isIgnored` and `matchesGitignoreRule`).

Modelling conventions:
* A directory tree is an inductive `FSTree`; a directory whose `os.ReadDir`
  fails mid-walk is `FSTree.badDir`.  `filepath.WalkDir` is embedded as a
  structurally recursive walk producing the collected file paths (as lists of
  path segments relative to the scanned root) plus an optional error, exactly
  following the walk/abort behaviour of the Go standard library for the
  callback used by `GetSourceList`.
* Paths handed to filters are the entry's base name and the `/`-joined
  relative path, matching `d.Name()` and `filepath.ToSlash(filepath.Rel(dir, path))`.
* The third-party matcher `github.com/sabhiram/go-gitignore` is not part of the
  repository; `CompileIgnoreFile` is abstracted as a parameter
  `compileIgnoreFile : String → Option (String → Bool)` (`none` models a read
  or compile error).  `CompileIgnoreLines()` with no lines matches no path and
  is embedded as `fun _ => false`.
* The Go standard library's `filepath.Match` is likewise abstracted as a
  parameter `goMatch`; `strings.Split`, `strings.Join`, `strings.TrimSuffix`,
  `filepath.Base`, `filepath.Dir`, `filepath.Clean` and `filepath.Ext` are
  embedded concretely below, each one following the Go implementation.
-/

/-- Splits a character list at every occurrence of `sep`; the embedding of
Go's `strings.Split` (on a one-character separator), at the character level.
`strings.Split("", sep)` is `[""]`, so the empty list yields `[[]]`. -/
def splitChars (sep : Char) : List Char → List (List Char)
  | [] => [[]]
  | c :: cs =>
      if c = sep then [] :: splitChars sep cs
      else
        match splitChars sep cs with
        | [] => [[c]]
        | p :: ps => (c :: p) :: ps

/-- Go's `strings.Split(s, "/")`. -/
def goSplit (s : String) : List String :=
  (splitChars '/' s.data).map String.mk

/-- Go's `strings.Join(l, "/")`. -/
def goJoin : List String → String
  | [] => ""
  | [s] => s
  | s :: t :: rest => s ++ "/" ++ goJoin (t :: rest)

/-- Go's `strings.HasPrefix(s, pre)`. -/
def goHasPrefix (s pre : String) : Bool :=
  List.isPrefixOf pre.data s.data

/-- Go's `strings.HasSuffix(s, suf)`. -/
def goHasSuffix (s suf : String) : Bool :=
  List.isSuffixOf suf.data s.data

/-- Go's `strings.Contains(s, c)` for a one-character needle. -/
def goContains (s : String) (c : Char) : Bool :=
  s.data.contains c

/-- Go's `strings.TrimSuffix`: drop the suffix when present. -/
def trimSuffix (s suf : String) : String :=
  if goHasSuffix s suf then String.mk (s.data.take (s.data.length - suf.data.length)) else s

/-- Go's `strings.TrimSpace` (white space at both ends). -/
def goTrimSpace (s : String) : String :=
  String.mk (((s.data.dropWhile Char.isWhitespace).reverse.dropWhile Char.isWhitespace).reverse)

/-- `strings.Split(s, "\n")`, the line splitting of the rule-file scanner. -/
def splitLines (s : String) : List String :=
  (splitChars '\n' s.data).map String.mk

/-- The trailing-separator stripping loop of Go's `filepath.Base`,
at the character level. -/
def dropTrailingSep (cs : List Char) : List Char :=
  (cs.reverse.dropWhile (fun c => c = '/')).reverse

/-- The characters after the last `/`; the `strings.LastIndex` step of
Go's `filepath.Base`. -/
def lastComponent (cs : List Char) : List Char :=
  (cs.reverse.takeWhile (fun c => c ≠ '/')).reverse

/-- Go's `filepath.Base` (Unix rules): `""` gives `"."`; trailing separators
are stripped; a string of only separators gives `"/"`; otherwise the part
after the last separator. -/
def goBase (path : String) : String :=
  if path = "" then "."
  else
    let cs := dropTrailingSep path.data
    if cs = [] then "/"
    else String.mk (lastComponent cs)

/-- Go's `filepath.Ext` restricted to a base name (no separators): the suffix
beginning at the final dot, or `""` when there is no dot.  `GetSourceList`
calls `filepath.Ext` on the full path, which equals the extension of the
path's base name. -/
def goExt (name : String) : String :=
  let tail := name.data.reverse.takeWhile (fun c => c ≠ '.')
  if tail.length = name.data.length then ""
  else String.mk ('.' :: tail.reverse)

/-- The `contains` helper of `get_source_list.go`: linear scan for an exact
string match. -/
def contains : List String → String → Bool
  | [], _ => false
  | s :: rest, item => if s == item then true else contains rest item

/-- First-character test `os.IsPathSeparator(path[0])` used by Go's
`filepath.Clean` to detect a rooted path. -/
def isRooted (path : String) : Bool :=
  path.data.head? == some '/'

/-- One step of the element processing loop of Go's `filepath.Clean`:
empty and `.` elements are dropped, `..` pops the previous element (kept
literally at the start of a relative path, dropped at the root of a rooted
path), anything else is pushed.  The accumulator holds the output elements
in reverse order. -/
def cleanStep (rooted : Bool) (acc : List String) (part : String) : List String :=
  if part = "" ∨ part = "." then acc
  else if part = ".." then
    match acc with
    | [] => if rooted then [] else [".."]
    | p :: rest => if p = ".." then ".." :: p :: rest else rest
  else part :: acc

/-- Go's `filepath.Clean` (Unix rules), via the standard lexical algorithm:
split on `/`, process the elements, rejoin, with `"."`, `"/"` as the empty
results. -/
def goClean (path : String) : String :=
  if path = "" then "."
  else
    let rooted := isRooted path
    let out := ((goSplit path).foldl (cleanStep rooted) []).reverse
    if rooted then
      if out = [] then "/" else "/" ++ goJoin out
    else
      if out = [] then "." else goJoin out

/-- The characters of `path` up to and including the last `/` (empty when
there is no separator): the `path[:i+1]` slice taken by Go's `filepath.Dir`
before cleaning. -/
def upToLastSlash (path : String) : String :=
  String.mk ((path.data.reverse.dropWhile (fun c => c ≠ '/')).reverse)

/-- Go's `filepath.Dir`: everything up to the last separator, cleaned. -/
def goDir (path : String) : String :=
  goClean (upToLastSlash path)

/-- Termination measure for the parent-directory loop of
`matchesGitignoreRule`: the loop stops at `"."` and `"/"`, and
`goDir` strictly shortens every other string. -/
def dirMeasure (d : String) : Nat :=
  if d = "." ∨ d = "/" then 0 else d.length + 1

-- Weight of a split: total character count plus one per element.  A string
-- and its `goSplit` have weights differing by exactly one, and `goClean`
-- can only lose weight; this drives the termination of the `goDir` loop.

/-- Sum of `length + 1` over character chunks. -/
def chunksWeight : List (List Char) → Nat
  | [] => 0
  | p :: ps => p.length + 1 + chunksWeight ps

/-- Sum of `length + 1` over string parts. -/
def partsWeight : List String → Nat
  | [] => 0
  | p :: ps => p.length + 1 + partsWeight ps

theorem splitChars_ne_nil (sep : Char) (cs : List Char) : splitChars sep cs ≠ [] := by
  cases cs with
  | nil => simp [splitChars]
  | cons c cs =>
      simp only [splitChars]
      split
      · simp
      · cases h : splitChars sep cs <;> simp

theorem chunksWeight_splitChars (sep : Char) :
    ∀ cs : List Char, chunksWeight (splitChars sep cs) = cs.length + 1 := by
  intro cs
  induction cs with
  | nil => simp [splitChars, chunksWeight]
  | cons c cs ih =>
      simp only [splitChars]
      split
      · simp [chunksWeight, ih]; omega
      · cases h : splitChars sep cs with
        | nil => exact absurd h (splitChars_ne_nil sep cs)
        | cons p ps =>
            rw [h] at ih
            simp [chunksWeight] at ih ⊢
            omega

theorem partsWeight_map_mk (l : List (List Char)) :
    partsWeight (l.map String.mk) = chunksWeight l := by
  induction l with
  | nil => rfl
  | cons p ps ih => simp [partsWeight, chunksWeight, ih, String.length]

theorem partsWeight_goSplit (s : String) : partsWeight (goSplit s) = s.length + 1 := by
  rw [goSplit, partsWeight_map_mk, chunksWeight_splitChars]
  rfl

theorem goJoin_cons_cons (s t : String) (rest : List String) :
    goJoin (s :: t :: rest) = s ++ "/" ++ goJoin (t :: rest) := rfl

theorem goJoin_length : ∀ l : List String, l ≠ [] → (goJoin l).length + 1 = partsWeight l := by
  intro l
  induction l with
  | nil => intro h; exact absurd rfl h
  | cons s rest ih =>
      intro _
      cases rest with
      | nil => simp [goJoin, partsWeight]
      | cons t rest' =>
          rw [goJoin_cons_cons]
          have h2 := ih (by simp)
          have h3 : ("/" : String).length = 1 := rfl
          simp only [String.length_append, partsWeight] at *
          omega

theorem partsWeight_append (l1 l2 : List String) :
    partsWeight (l1 ++ l2) = partsWeight l1 + partsWeight l2 := by
  induction l1 with
  | nil => simp [partsWeight]
  | cons p ps ih => simp [partsWeight, ih]; omega

theorem partsWeight_reverse (l : List String) : partsWeight l.reverse = partsWeight l := by
  induction l with
  | nil => rfl
  | cons p ps ih => simp [List.reverse_cons, partsWeight_append, partsWeight, ih]; omega

/-- Per-element weight budget of `cleanStep`: skipped elements contribute
nothing, everything else at most its own weight. -/
def gainBound (p : String) : Nat :=
  if p = "" ∨ p = "." then 0 else p.length + 1

/-- Total weight budget of a part list under `cleanStep`. -/
def gainSum : List String → Nat
  | [] => 0
  | p :: ps => gainBound p + gainSum ps

theorem cleanStep_weight (r : Bool) (acc : List String) (p : String) :
    partsWeight (cleanStep r acc p) ≤ gainBound p + partsWeight acc := by
  by_cases hskip : p = "" ∨ p = "."
  · simp [cleanStep, hskip, gainBound]
  · by_cases hdd : p = ".."
    · subst hdd
      have hlen : (".." : String).length = 2 := rfl
      have hg : gainBound ".." = 3 := by decide
      have hc : ¬((".." : String) = "" ∨ (".." : String) = ".") := by decide
      cases acc with
      | nil =>
          cases r <;> simp [cleanStep, hc, hg, partsWeight, hlen]
      | cons p0 rest =>
          by_cases hp0 : p0 = ".."
          · subst hp0
            simp [cleanStep, hc, hg, partsWeight, hlen]
          · simp [cleanStep, hc, hp0, hg, partsWeight]
            omega
    · have hg : gainBound p = p.length + 1 := by
        unfold gainBound
        rw [if_neg hskip]
      simp [cleanStep, hskip, hdd, hg, partsWeight]

theorem foldl_cleanStep_weight (r : Bool) :
    ∀ (l : List String) (acc : List String),
      partsWeight (l.foldl (cleanStep r) acc) ≤ partsWeight acc + gainSum l := by
  intro l
  induction l with
  | nil => intro acc; simp [gainSum]
  | cons p ps ih =>
      intro acc
      have h1 := ih (cleanStep r acc p)
      have h2 := cleanStep_weight r acc p
      simp only [List.foldl_cons, gainSum]
      omega

theorem gainSum_le_partsWeight : ∀ l : List String, gainSum l ≤ partsWeight l := by
  intro l
  induction l with
  | nil => simp [gainSum, partsWeight]
  | cons p ps ih =>
      have : gainBound p ≤ p.length + 1 := by
        unfold gainBound; split <;> omega
      simp only [gainSum, partsWeight]
      omega

theorem gainSum_mem_le : ∀ l : List String, "" ∈ l → gainSum l + 1 ≤ partsWeight l := by
  intro l
  induction l with
  | nil => intro h; cases h
  | cons p ps ih =>
      intro h
      by_cases hp : p = ""
      · subst hp
        have := gainSum_le_partsWeight ps
        simp [gainSum, partsWeight, gainBound]
        omega
      · have hmem : "" ∈ ps := by
          cases h with
          | head => exact absurd rfl hp
          | tail _ h => exact h
        have := ih hmem
        have : gainBound p ≤ p.length + 1 := by
          unfold gainBound; split <;> omega
        simp only [gainSum, partsWeight]
        omega

theorem getLast?_some_mem {α : Type} : ∀ (l : List α) (a : α), l.getLast? = some a → a ∈ l := by
  intro l
  induction l with
  | nil => intro a h; simp at h
  | cons p ps ih =>
      intro a h
      cases ps with
      | nil => simp at h; simp [h]
      | cons q qs =>
          rw [List.getLast?_cons_cons] at h
          exact List.mem_cons_of_mem p (ih a h)

theorem splitChars_length_ge_two (sep : Char) :
    ∀ cs : List Char, sep ∈ cs → 2 ≤ (splitChars sep cs).length := by
  intro cs
  induction cs with
  | nil => intro h; cases h
  | cons c cs ih =>
      intro h
      simp only [splitChars]
      split
      · have := List.length_pos.mpr (splitChars_ne_nil sep cs)
        simp; omega
      · rename_i hc
        have hmem : sep ∈ cs := by
          cases h with
          | head => exact absurd rfl hc
          | tail _ h => exact h
        cases hs : splitChars sep cs with
        | nil => exact absurd hs (splitChars_ne_nil sep cs)
        | cons p ps =>
            have := ih hmem
            rw [hs] at this
            simp at this ⊢
            omega

theorem splitChars_concat_sep_getLast? (sep : Char) :
    ∀ cs : List Char, (splitChars sep (cs ++ [sep])).getLast? = some [] := by
  intro cs
  induction cs with
  | nil => simp [splitChars]
  | cons c cs ih =>
      simp only [List.cons_append, splitChars]
      split
      · cases hs : splitChars sep (cs ++ [sep]) with
        | nil => exact absurd hs (splitChars_ne_nil sep (cs ++ [sep]))
        | cons p ps =>
            rw [hs] at ih
            rw [List.getLast?_cons_cons]
            exact ih
      · cases hs : splitChars sep (cs ++ [sep]) with
        | nil => exact absurd hs (splitChars_ne_nil sep (cs ++ [sep]))
        | cons p ps =>
            have hlen := splitChars_length_ge_two sep (cs ++ [sep]) (by simp)
            rw [hs] at hlen ih
            cases ps with
            | nil => simp at hlen
            | cons q qs =>
                rw [List.getLast?_cons_cons] at ih ⊢
                exact ih

theorem goSplit_rooted (s : String) (h : isRooted s = true) :
    ∃ t, goSplit s = "" :: t := by
  simp only [isRooted, beq_iff_eq] at h
  cases hd : s.data with
  | nil => rw [hd] at h; simp at h
  | cons c rest =>
      rw [hd] at h
      simp at h
      subst h
      refine ⟨(splitChars '/' rest).map String.mk, ?_⟩
      simp [goSplit, hd, splitChars]

theorem goSplit_getLast_of_trailing (s : String) (cs : List Char)
    (hdata : s.data = cs ++ ['/']) : (goSplit s).getLast? = some "" := by
  rw [goSplit, List.getLast?_map, hdata, splitChars_concat_sep_getLast?]
  rfl

theorem goSplit_length_ge_two (s : String) (h : '/' ∈ s.data) :
    2 ≤ (goSplit s).length := by
  rw [goSplit, List.length_map]
  exact splitChars_length_ge_two '/' s.data h

theorem goClean_length_lt (s : String) (cs : List Char)
    (hdata : s.data = cs ++ ['/']) (hcs : cs ≠ []) : (goClean s).length < s.length := by
  have hemp : ("" : String).data = [] := rfl
  have hne : s ≠ "" := by
    intro h
    rw [h, hemp] at hdata
    exact absurd hdata.symm (by simp)
  have hslen : s.length = cs.length + 1 := by
    show s.data.length = cs.length + 1
    rw [hdata]; simp
  have hcslen : 1 ≤ cs.length := List.length_pos.mpr hcs
  have hW : partsWeight (goSplit s) = s.length + 1 := partsWeight_goSplit s
  have hlast : (goSplit s).getLast? = some "" := goSplit_getLast_of_trailing s cs hdata
  have hmem : "" ∈ goSplit s := getLast?_some_mem _ _ hlast
  have hgain1 : gainSum (goSplit s) + 1 ≤ partsWeight (goSplit s) :=
    gainSum_mem_le (goSplit s) hmem
  have hfw : partsWeight ((goSplit s).foldl (cleanStep (isRooted s)) []) ≤ gainSum (goSplit s) := by
    have := foldl_cleanStep_weight (isRooted s) (goSplit s) []
    simpa [partsWeight] using this
  have hwout :
      partsWeight ((goSplit s).foldl (cleanStep (isRooted s)) []).reverse
        = partsWeight ((goSplit s).foldl (cleanStep (isRooted s)) []) :=
    partsWeight_reverse _
  simp only [goClean, if_neg hne]
  cases hr : isRooted s with
  | false =>
      simp only [Bool.false_eq_true, if_false]
      by_cases hout : ((goSplit s).foldl (cleanStep false) []).reverse = []
      · rw [if_pos hout]
        have : ("." : String).length = 1 := rfl
        omega
      · rw [if_neg hout]
        have hj := goJoin_length _ hout
        rw [hr] at hfw hwout
        omega
  | true =>
      simp only [if_true]
      obtain ⟨t, ht⟩ := goSplit_rooted s hr
      have hlen2 : 2 ≤ (goSplit s).length := goSplit_length_ge_two s (by rw [hdata]; simp)
      have htne : t ≠ [] := by
        intro h
        rw [ht, h] at hlen2
        simp at hlen2
      have htlast : t.getLast? = some "" := by
        rw [ht] at hlast
        cases t with
        | nil => exact absurd rfl htne
        | cons q qs => rw [List.getLast?_cons_cons] at hlast; exact hlast
      have htmem : "" ∈ t := getLast?_some_mem _ _ htlast
      have hgain2 : gainSum (goSplit s) + 2 ≤ partsWeight (goSplit s) := by
        have h1 := gainSum_mem_le t htmem
        have hgb : gainBound "" = 0 := by decide
        have hl0 : ("" : String).length = 0 := rfl
        rw [ht]
        simp only [gainSum, partsWeight, hgb, hl0]
        omega
      by_cases hout : ((goSplit s).foldl (cleanStep true) []).reverse = []
      · rw [if_pos hout]
        have : ("/" : String).length = 1 := rfl
        omega
      · rw [if_neg hout]
        have hj := goJoin_length _ hout
        have happ : ("/" ++ goJoin ((goSplit s).foldl (cleanStep true) []).reverse).length
            = 1 + (goJoin ((goSplit s).foldl (cleanStep true) []).reverse).length := by
          rw [String.length_append]
          have : ("/" : String).length = 1 := rfl
          omega
        rw [hr] at hfw hwout
        omega

theorem dirMeasure_le (d : String) : dirMeasure d ≤ d.length + 1 := by
  unfold dirMeasure
  split <;> omega

theorem length_dropWhile_le' {α : Type} (p : α → Bool) :
    ∀ l : List α, (l.dropWhile p).length ≤ l.length := by
  intro l
  induction l with
  | nil => simp
  | cons a l ih =>
      rw [List.dropWhile_cons]
      split
      · exact Nat.le_trans ih (by simp)
      · simp

theorem dropWhile_slash_mem :
    ∀ l : List Char, '/' ∈ l → ∃ t, l.dropWhile (fun c => c ≠ '/') = '/' :: t := by
  intro l
  induction l with
  | nil => intro h; cases h
  | cons a l ih =>
      intro h
      by_cases ha : a = '/'
      · subst ha
        refine ⟨l, ?_⟩
        rw [List.dropWhile_cons, if_neg (by simp)]
      · have hmem : '/' ∈ l := by
          cases h with
          | head => exact absurd rfl ha
          | tail _ h => exact h
        obtain ⟨t, ht⟩ := ih hmem
        refine ⟨t, ?_⟩
        rw [List.dropWhile_cons, if_pos (by simp [ha]), ht]

theorem dropWhile_no_slash :
    ∀ l : List Char, (∀ c ∈ l, c ≠ '/') → l.dropWhile (fun c => c ≠ '/') = [] := by
  intro l
  induction l with
  | nil => intro _; rfl
  | cons a l ih =>
      intro h
      rw [List.dropWhile_cons, if_pos (by simp [h a (by simp)])]
      exact ih (fun c hc => h c (List.mem_cons_of_mem a hc))

theorem dirMeasure_goDir_lt (d : String) (h1 : d ≠ ".") (h2 : d ≠ "/") :
    dirMeasure (goDir d) < dirMeasure d := by
  have hm : dirMeasure d = d.length + 1 := by
    unfold dirMeasure
    rw [if_neg (by simp [h1, h2])]
  by_cases hs : '/' ∈ d.data
  · obtain ⟨t, ht⟩ := dropWhile_slash_mem d.data.reverse (List.mem_reverse.mpr hs)
    have hu : (upToLastSlash d).data = t.reverse ++ ['/'] := by
      show (d.data.reverse.dropWhile (fun c => c ≠ '/')).reverse = t.reverse ++ ['/']
      rw [ht]
      simp
    have hulen : (upToLastSlash d).length ≤ d.length := by
      show (upToLastSlash d).data.length ≤ d.data.length
      show ((d.data.reverse.dropWhile (fun c => c ≠ '/')).reverse).length ≤ d.data.length
      rw [List.length_reverse]
      calc (d.data.reverse.dropWhile (fun c => c ≠ '/')).length
          ≤ d.data.reverse.length := length_dropWhile_le' _ _
        _ = d.data.length := List.length_reverse _
    cases htr : t.reverse with
    | nil =>
        have hu2 : upToLastSlash d = "/" := by
          show String.mk ((d.data.reverse.dropWhile (fun c => c ≠ '/')).reverse) = "/"
          rw [ht]
          simp [htr]
        rw [goDir, hu2]
        have : goClean "/" = "/" := by decide
        rw [this]
        have : dirMeasure "/" = 0 := by decide
        omega
    | cons c cs' =>
        have hlt := goClean_length_lt (upToLastSlash d) t.reverse (by rw [hu]) (by rw [htr]; simp)
        have hdm := dirMeasure_le (goDir d)
        rw [goDir] at hdm ⊢
        omega
  · have hnil : d.data.reverse.dropWhile (fun c => c ≠ '/') = [] := by
      apply dropWhile_no_slash
      intro c hc hc2
      subst hc2
      exact hs (List.mem_reverse.mp hc)
    have hu2 : upToLastSlash d = "" := by
      show String.mk ((d.data.reverse.dropWhile (fun c => c ≠ '/')).reverse) = ""
      rw [hnil]
      rfl
    rw [goDir, hu2]
    have : goClean "" = "." := by decide
    rw [this]
    have : dirMeasure "." = 0 := by decide
    omega

/-- The parent-directory loop inside the wildcard branch of
`matchesGitignoreRule`: starting from `filepath.Dir(filePath)`, while the
current directory is neither `"."` nor `"/"`, test `goMatch` against its base
name and step to its parent. -/
def ancestorBaseMatch (goMatch : String → String → Bool) (rule : String) (dir : String) : Bool :=
  if _h : dir = "." ∨ dir = "/" then false
  else goMatch rule (goBase dir) || ancestorBaseMatch goMatch rule (goDir dir)
termination_by dirMeasure dir
decreasing_by
  exact dirMeasure_goDir_lt dir (fun he => _h (Or.inl he)) (fun he => _h (Or.inr he))

/-- The simplified gitignore matcher `matchesGitignoreRule` of the
self-contained variant: negated rules never match; a rule ending in `/` is
matched against every segment prefix of the path (full joined prefix or its
base name); otherwise exact path equality, then (for rules containing `*`)
glob tests against the full path, its base name and every ancestor
directory's base name, and finally per-segment equality or glob match.
`goMatch` abstracts the standard library's `filepath.Match` (whose error
result the source discards). -/
def matchesGitignoreRule (goMatch : String → String → Bool) (filePath rule : String) : Bool :=
  if goHasPrefix rule "!" then false
  else if goHasSuffix rule "/" then
    let dirRule := trimSuffix rule "/"
    let pathParts := goSplit filePath
    (List.range pathParts.length).any (fun i =>
      let dirPath := goJoin (pathParts.take (i + 1))
      dirPath == dirRule || goBase dirPath == dirRule)
  else if rule == filePath then true
  else
    (if goContains rule '*' then
        goMatch rule filePath
          || goMatch rule (goBase filePath)
          || ancestorBaseMatch goMatch rule (goDir filePath)
      else false)
    || (goSplit filePath).any (fun part =>
        rule == part || (goContains rule '*' && goMatch rule part))

/-- `isIgnored` of the self-contained variant.  The source first computes
`filepath.ToSlash(filepath.Rel(rootDir, filePath))`; the embedding receives
that slash-joined relative path directly (the walker below produces it). -/
def isIgnored (goMatch : String → String → Bool) (relPath : String) (rules : List String) : Bool :=
  rules.any (fun rule => matchesGitignoreRule goMatch relPath rule)

/-- `loadGitignoreRules` of the self-contained variant: `none` models a
failed `os.Open` (no rules); otherwise each line is trimmed and blank or
`#`-comment lines are dropped. -/
def loadGitignoreRules : Option String → List String
  | none => []
  | some text =>
      ((splitLines text).map (fun line => goTrimSpace line)).filter
        (fun line => !(line == "" || goHasPrefix line "#"))

-- The filesystem model and the embedding of `filepath.WalkDir` with the
-- walk callback shared by both variants of `GetSourceList`.

mutual
/-- A directory tree: a regular file, a readable directory with its entries
(in directory-listing order), or a directory whose `os.ReadDir` fails. -/
inductive FSTree where
  | file (name : String) : FSTree
  | dir (name : String) (entries : FSForest) : FSTree
  | badDir (name : String) : FSTree
/-- Entries of a directory. -/
inductive FSForest where
  | nil : FSForest
  | cons (head : FSTree) (tail : FSForest) : FSForest
end

/-- The error returned by the embedded `GetSourceList`: the `os.Lstat`
failure on the root itself, or the `os.ReadDir` failure of the directory at
the given root-relative segment path (`[]` is the root). -/
inductive GoError where
  | rootAccessError : GoError
  | readDirError (relPath : List String) : GoError
deriving Repr, DecidableEq

mutual
/-- One `walkDir` visit of the Go standard library, specialised to the
callback of `GetSourceList`: files are kept when the filter `keep` (applied
to the parent's relative segments and the entry name) accepts them;
directories named `.git` are pruned via `filepath.SkipDir`; a `badDir`
surfaces its `ReadDir` error, which the callback returns unchanged, aborting
the walk.  The result pairs the kept relative paths (in visit order) with
the optional aborting error. -/
def walkNode (keep : List String → String → Bool) (t : FSTree) (rel : List String) :
    List (List String) × Option GoError :=
  match t with
  | FSTree.file n => (if keep rel n then [rel ++ [n]] else [], none)
  | FSTree.dir n entries =>
      if n = ".git" then ([], none)
      else walkForest keep entries (rel ++ [n])
  | FSTree.badDir n =>
      if n = ".git" then ([], none)
      else ([], some (GoError.readDirError (rel ++ [n])))
/-- Walks the entries of a directory in order, stopping at the first error
and keeping the paths collected up to it (the Go callback appends to the
shared `files` slice before the error aborts `filepath.WalkDir`). -/
def walkForest (keep : List String → String → Bool) (f : FSForest) (rel : List String) :
    List (List String) × Option GoError :=
  match f with
  | FSForest.nil => ([], none)
  | FSForest.cons e rest =>
      match walkNode keep e rel with
      | (fs, none) =>
          match walkForest keep rest rel with
          | (fs2, r) => (fs ++ fs2, r)
      | (fs, some err) => (fs, some err)
end

/-- `filepath.WalkDir` applied to the root, specialised to the
`GetSourceList` callback.  `none` models a root whose `os.Lstat` fails.  A
root that is a regular file is visited once, with relative path `"."`
(`filepath.Rel(dir, dir)`); its kept path is the root itself, represented by
its base name.  A root directory named `.git` is skipped by the callback
before its entries are read. -/
def scanRoot (keep : String → String → Bool) : Option FSTree → List (List String) × Option GoError
  | none => ([], some GoError.rootAccessError)
  | some (FSTree.file n) => (if keep "." n then [[n]] else [], none)
  | some (FSTree.dir n entries) =>
      if n = ".git" then ([], none)
      else walkForest (fun rel name => keep (goJoin (rel ++ [name])) name) entries []
  | some (FSTree.badDir n) =>
      if n = ".git" then ([], none)
      else ([], some (GoError.readDirError []))

/-- `GetSourceListOptions` of `pkgs/utils/get_source_list.go`. -/
structure GetSourceListOptions where
  RespectGitignore : Bool
  IncludeHidden : Bool
  Extensions : List String
  GitignoreFilePath : String
deriving Repr, DecidableEq

/-- The defaults substituted when `options == nil`: the remaining fields take
Go's zero values. -/
def defaultGetSourceListOptions : GetSourceListOptions :=
  { RespectGitignore := true, IncludeHidden := false, Extensions := [], GitignoreFilePath := "" }

/-- The `options == nil` replacement at the top of `GetSourceList`. -/
def effectiveOptions : Option GetSourceListOptions → GetSourceListOptions
  | none => defaultGetSourceListOptions
  | some o => o

/-- `filepath.Join(dir, name)` as used for the default gitignore location:
non-empty elements joined with `/`, then cleaned. -/
def goJoin2 (a b : String) : String :=
  if a = "" ∧ b = "" then ""
  else if a = "" then goClean b
  else goClean (a ++ "/" ++ b)

/-- The gitignore path selected by `GetSourceList`: the custom
`GitignoreFilePath` when non-empty, else `filepath.Join(dir, ".gitignore")`. -/
def resolvedGitignorePath (dir : String) (opts : GetSourceListOptions) : String :=
  if opts.GitignoreFilePath ≠ "" then opts.GitignoreFilePath
  else goJoin2 dir ".gitignore"

/-- The matcher `GetSourceList` ends up holding: `none` when
`RespectGitignore` is off; otherwise the compiled ignore file, with a failed
`CompileIgnoreFile` replaced by the empty `CompileIgnoreLines()` matcher,
which matches no path. -/
def resolvedMatcher (dir : String) (opts : GetSourceListOptions)
    (compileIgnoreFile : String → Option (String → Bool)) : Option (String → Bool) :=
  if opts.RespectGitignore then
    some ((compileIgnoreFile (resolvedGitignorePath dir opts)).getD (fun _ => false))
  else none

/-- The per-file filter of the `GetSourceList` callback in
`get_source_list.go`: hidden-name check on `d.Name()`, extension check on
`filepath.Ext(path)`, then the gitignore matcher on the slash-normalised
relative path. -/
def keepFile (opts : GetSourceListOptions) (gitIgnore : Option (String → Bool))
    (relPathStr : String) (name : String) : Bool :=
  if !opts.IncludeHidden && goHasPrefix name "." then false
  else if opts.Extensions.length > 0 && !contains opts.Extensions (goExt name) then false
  else
    match gitIgnore with
    | some m => if m relPathStr then false else true
    | none => true

/-- `GetSourceList` of `pkgs/utils/get_source_list.go`.  `dir` is the root
path string (used only to locate the default ignore file), `root` the tree
behind it (`none`: `os.Lstat` fails), `compileIgnoreFile` the third-party
`ignore.CompileIgnoreFile` keyed by file path.  Returns the collected paths
(as root-relative segment lists) and the walk error, exactly as the Go
function returns `files, err`. -/
def GetSourceList (dir : String) (root : Option FSTree) (options : Option GetSourceListOptions)
    (compileIgnoreFile : String → Option (String → Bool)) :
    List (List String) × Option GoError :=
  let opts := effectiveOptions options
  let gitIgnore := resolvedMatcher dir opts compileIgnoreFile
  scanRoot (fun relStr name => keepFile opts gitIgnore relStr name) root

/-- Options of the self-contained variant (no custom gitignore path). -/
structure SimpleGetSourceListOptions where
  RespectGitignore : Bool
  IncludeHidden : Bool
  Extensions : List String
deriving Repr, DecidableEq

/-- The `options == nil` replacement of the self-contained variant. -/
def effectiveSimpleOptions : Option SimpleGetSourceListOptions → SimpleGetSourceListOptions
  | none => { RespectGitignore := true, IncludeHidden := false, Extensions := [] }
  | some o => o

/-- The per-file filter of the self-contained variant's callback: hidden and
extension checks as above, then `options.RespectGitignore && isIgnored(...)`. -/
def simplifiedKeep (goMatch : String → String → Bool) (opts : SimpleGetSourceListOptions)
    (rules : List String) (relPathStr : String) (name : String) : Bool :=
  if !opts.IncludeHidden && goHasPrefix name "." then false
  else if opts.Extensions.length > 0 && !contains opts.Extensions (goExt name) then false
  else if opts.RespectGitignore && isIgnored goMatch relPathStr rules then false
  else true

/-- The walk of the self-contained variant once its rule list is fixed. -/
def scanWithRules (goMatch : String → String → Bool) (root : Option FSTree)
    (opts : SimpleGetSourceListOptions) (rules : List String) :
    List (List String) × Option GoError :=
  scanRoot (simplifiedKeep goMatch opts rules) root

/-- `GetSourceList` of the self-contained variant: loads the rules from the
root's `.gitignore` content (when `RespectGitignore` is set), then walks. -/
def SimplifiedGetSourceList (goMatch : String → String → Bool) (root : Option FSTree)
    (options : Option SimpleGetSourceListOptions) (gitignoreContent : Option String) :
    List (List String) × Option GoError :=
  let opts := effectiveSimpleOptions options
  scanWithRules goMatch root opts
    (if opts.RespectGitignore then loadGitignoreRules gitignoreContent else [])

mutual
/-- Replaces every unreadable directory by an empty readable one, leaving
everything else unchanged; used to express which files an aborted scan had
already collected. -/
def healTree : FSTree → FSTree
  | FSTree.file n => FSTree.file n
  | FSTree.dir n entries => FSTree.dir n (healForest entries)
  | FSTree.badDir n => FSTree.dir n FSForest.nil
/-- `healTree` over a directory's entries. -/
def healForest : FSForest → FSForest
  | FSForest.nil => FSForest.nil
  | FSForest.cons e rest => FSForest.cons (healTree e) (healForest rest)
end

/-- The base name of a collected path: its final segment. -/
def baseName (p : List String) : String :=
  p.getLastD ""

/-- Options used by concrete instantiations: extension filter only. -/
def goOnlyOptions : GetSourceListOptions :=
  { RespectGitignore := false, IncludeHidden := false, Extensions := [".go"], GitignoreFilePath := "" }

theorem prefix_append_both {α : Type} (l : List α) {l1 l2 : List α} (h : l1 <+: l2) :
    l ++ l1 <+: l ++ l2 := by
  obtain ⟨t, ht⟩ := h
  exact ⟨t, by rw [List.append_assoc, ht]⟩

mutual
theorem walkNode_congr (k1 k2 : List String → String → Bool)
    (h : ∀ r n, k1 r n = k2 r n) :
    ∀ (t : FSTree) (rel : List String), walkNode k1 t rel = walkNode k2 t rel
  | FSTree.file n, rel => by simp [walkNode, h]
  | FSTree.dir n entries, rel => by
      simp only [walkNode]
      rw [walkForest_congr k1 k2 h entries (rel ++ [n])]
  | FSTree.badDir n, rel => by simp [walkNode]
theorem walkForest_congr (k1 k2 : List String → String → Bool)
    (h : ∀ r n, k1 r n = k2 r n) :
    ∀ (f : FSForest) (rel : List String), walkForest k1 f rel = walkForest k2 f rel
  | FSForest.nil, rel => rfl
  | FSForest.cons e rest, rel => by
      simp only [walkForest]
      rw [walkNode_congr k1 k2 h e rel, walkForest_congr k1 k2 h rest rel]
end

theorem scanRoot_congr (k1 k2 : String → String → Bool) (h : ∀ s n, k1 s n = k2 s n) :
    ∀ root : Option FSTree, scanRoot k1 root = scanRoot k2 root
  | none => rfl
  | some (FSTree.file n) => by simp [scanRoot, h]
  | some (FSTree.dir n entries) => by
      simp only [scanRoot]
      rw [walkForest_congr _ _ (fun r nm => h (goJoin (r ++ [nm])) nm) entries []]
  | some (FSTree.badDir n) => by simp [scanRoot]

mutual
theorem walkNode_mem (keep : List String → String → Bool) :
    ∀ (t : FSTree) (rel : List String) (p : List String),
      p ∈ (walkNode keep t rel).1 →
      ∃ q n, p = rel ++ q ++ [n] ∧ keep (rel ++ q) n = true ∧ ".git" ∉ q
  | FSTree.file n, rel, p => by
      intro hp
      simp only [walkNode] at hp
      by_cases hk : keep rel n = true
      · rw [if_pos hk] at hp
        simp at hp
        exact ⟨[], n, by simp [hp], by simpa using hk, by simp⟩
      · rw [if_neg hk] at hp
        simp at hp
  | FSTree.dir n0 entries, rel, p => by
      intro hp
      simp only [walkNode] at hp
      by_cases hg : n0 = ".git"
      · rw [if_pos hg] at hp
        simp at hp
      · rw [if_neg hg] at hp
        obtain ⟨q, n, hpq, hk, hng⟩ := walkForest_mem keep entries (rel ++ [n0]) p hp
        refine ⟨n0 :: q, n, ?_, ?_, ?_⟩
        · rw [hpq]; simp
        · have : rel ++ n0 :: q = rel ++ [n0] ++ q := by simp
          rw [this]; exact hk
        · intro hmem
          cases hmem with
          | head => exact hg rfl
          | tail _ hmem => exact hng hmem
  | FSTree.badDir n0, rel, p => by
      intro hp
      simp only [walkNode] at hp
      by_cases hg : n0 = ".git"
      · rw [if_pos hg] at hp; simp at hp
      · rw [if_neg hg] at hp; simp at hp
theorem walkForest_mem (keep : List String → String → Bool) :
    ∀ (f : FSForest) (rel : List String) (p : List String),
      p ∈ (walkForest keep f rel).1 →
      ∃ q n, p = rel ++ q ++ [n] ∧ keep (rel ++ q) n = true ∧ ".git" ∉ q
  | FSForest.nil, rel, p => by intro hp; simp [walkForest] at hp
  | FSForest.cons e rest, rel, p => by
      intro hp
      simp only [walkForest] at hp
      rcases hw : walkNode keep e rel with ⟨fs, r⟩
      rw [hw] at hp
      cases r with
      | none =>
          rcases hw2 : walkForest keep rest rel with ⟨fs2, r2⟩
          rw [hw2] at hp
          simp at hp
          cases hp with
          | inl hp =>
              have := walkNode_mem keep e rel p (by rw [hw]; exact hp)
              exact this
          | inr hp =>
              have := walkForest_mem keep rest rel p (by rw [hw2]; exact hp)
              exact this
      | some err =>
          simp at hp
          exact walkNode_mem keep e rel p (by rw [hw]; exact hp)
end

theorem baseName_concat (q : List String) (n : String) : baseName (q ++ [n]) = n := by
  simp [baseName]

/-- Every path kept by a scan ends in a base name accepted by the filter at
some relative path, and passes under no `.git` directory. -/
theorem scanRoot_mem (keep : String → String → Bool) :
    ∀ (root : Option FSTree) (p : List String), p ∈ (scanRoot keep root).1 →
      ∃ relStr n, baseName p = n ∧ keep relStr n = true ∧ ".git" ∉ p.dropLast
  | none, p => by intro hp; simp [scanRoot] at hp
  | some (FSTree.file n), p => by
      intro hp
      simp only [scanRoot] at hp
      by_cases hk : keep "." n = true
      · rw [if_pos hk] at hp
        simp at hp
        refine ⟨".", n, ?_, by simpa using hk, ?_⟩
        · rw [hp]; rfl
        · rw [hp]; simp
      · rw [if_neg hk] at hp; simp at hp
  | some (FSTree.dir n0 entries), p => by
      intro hp
      simp only [scanRoot] at hp
      by_cases hg : n0 = ".git"
      · rw [if_pos hg] at hp; simp at hp
      · rw [if_neg hg] at hp
        obtain ⟨q, n, hpq, hk, hng⟩ :=
          walkForest_mem (fun rel name => keep (goJoin (rel ++ [name])) name) entries [] p hp
        simp at hpq hk
        refine ⟨goJoin (q ++ [n]), n, ?_, hk, ?_⟩
        · rw [hpq, baseName_concat]
        · rw [hpq, List.dropLast_concat]
          exact hng
  | some (FSTree.badDir n0), p => by
      intro hp
      simp only [scanRoot] at hp
      by_cases hg : n0 = ".git"
      · rw [if_pos hg] at hp; simp at hp
      · rw [if_neg hg] at hp; simp at hp

mutual
theorem walkNode_heal (keep : List String → String → Bool) :
    ∀ (t : FSTree) (rel : List String),
      (walkNode keep (healTree t) rel).2 = none ∧
      ((walkNode keep t rel).2 = none → walkNode keep t rel = walkNode keep (healTree t) rel) ∧
      (walkNode keep t rel).1 <+: (walkNode keep (healTree t) rel).1
  | FSTree.file n, rel =>
      ⟨rfl, fun _ => rfl, List.prefix_refl _⟩
  | FSTree.dir n entries, rel => by
      simp only [healTree, walkNode]
      by_cases hg : n = ".git"
      · rw [if_pos hg, if_pos hg]
        exact ⟨rfl, fun _ => rfl, List.prefix_refl _⟩
      · rw [if_neg hg, if_neg hg]
        exact walkForest_heal keep entries (rel ++ [n])
  | FSTree.badDir n, rel => by
      simp only [healTree, walkNode, walkForest]
      by_cases hg : n = ".git"
      · rw [if_pos hg, if_pos hg]
        exact ⟨rfl, fun _ => rfl, List.prefix_refl _⟩
      · rw [if_neg hg, if_neg hg]
        refine ⟨rfl, ?_, List.prefix_refl _⟩
        intro h
        exact absurd (show some (GoError.readDirError (rel ++ [n])) = none from h) (by simp)
theorem walkForest_heal (keep : List String → String → Bool) :
    ∀ (f : FSForest) (rel : List String),
      (walkForest keep (healForest f) rel).2 = none ∧
      ((walkForest keep f rel).2 = none →
        walkForest keep f rel = walkForest keep (healForest f) rel) ∧
      (walkForest keep f rel).1 <+: (walkForest keep (healForest f) rel).1
  | FSForest.nil, rel =>
      ⟨rfl, fun _ => rfl, List.prefix_refl _⟩
  | FSForest.cons e rest, rel => by
      obtain ⟨he1, he2, he3⟩ := walkNode_heal keep e rel
      obtain ⟨hr1, hr2, hr3⟩ := walkForest_heal keep rest rel
      simp only [healForest, walkForest]
      rcases hw : walkNode keep e rel with ⟨fs, r⟩
      rcases hwh : walkNode keep (healTree e) rel with ⟨fsh, rh⟩
      rcases hf : walkForest keep rest rel with ⟨fs2, r2⟩
      rcases hfh : walkForest keep (healForest rest) rel with ⟨fs2h, r2h⟩
      rw [hwh] at he1
      rw [hfh] at hr1
      rw [hw, hwh] at he2 he3
      rw [hf, hfh] at hr2 hr3
      have hrh : rh = none := he1
      subst hrh
      have hr2h' : r2h = none := hr1
      subst hr2h'
      cases r with
      | none =>
          have hee := he2 rfl
          have hfs : fs = fsh := congrArg Prod.fst hee
          subst hfs
          refine ⟨rfl, ?_, ?_⟩
          · intro h2
            have hr2' : r2 = none := h2
            subst hr2'
            have heq := hr2 rfl
            have hfs2 : fs2 = fs2h := congrArg Prod.fst heq
            rw [hfs2]
          · exact prefix_append_both fs hr3
      | some err =>
          refine ⟨rfl, ?_, ?_⟩
          · intro h2
            exact absurd (show some err = none from h2) (by simp)
          · exact he3.trans (List.prefix_append fsh fs2h)
end

/-- `scanRoot` on the healed tree never errors; an error-free scan is
unchanged by healing; and any scan's collected paths are a prefix of the
healed scan's. -/
theorem scanRoot_heal (keep : String → String → Bool) :
    ∀ t : FSTree,
      (scanRoot keep (some (healTree t))).2 = none ∧
      ((scanRoot keep (some t)).2 = none →
        scanRoot keep (some t) = scanRoot keep (some (healTree t))) ∧
      (scanRoot keep (some t)).1 <+: (scanRoot keep (some (healTree t))).1
  | FSTree.file n => ⟨rfl, fun _ => rfl, List.prefix_refl _⟩
  | FSTree.dir n entries => by
      simp only [healTree, scanRoot]
      by_cases hg : n = ".git"
      · rw [if_pos hg, if_pos hg]
        exact ⟨rfl, fun _ => rfl, List.prefix_refl _⟩
      · rw [if_neg hg, if_neg hg]
        exact walkForest_heal (fun rel name => keep (goJoin (rel ++ [name])) name) entries []
  | FSTree.badDir n => by
      simp only [healTree, scanRoot, walkForest]
      by_cases hg : n = ".git"
      · rw [if_pos hg, if_pos hg]
        exact ⟨rfl, fun _ => rfl, List.prefix_refl _⟩
      · rw [if_neg hg, if_neg hg]
        refine ⟨rfl, ?_, List.prefix_refl _⟩
        intro h
        exact absurd (show some (GoError.readDirError []) = none from h) (by simp)

theorem keepFile_hidden (opts : GetSourceListOptions) (g : Option (String → Bool))
    (s n : String) (h : keepFile opts g s n = true) (hih : opts.IncludeHidden = false) :
    goHasPrefix n "." = false := by
  unfold keepFile at h
  by_cases hh : (!opts.IncludeHidden && goHasPrefix n ".") = true
  · rw [if_pos hh] at h
    exact absurd h (by simp)
  · rw [hih] at hh
    simpa using hh

theorem keepFile_ext (opts : GetSourceListOptions) (g : Option (String → Bool))
    (s n : String) (h : keepFile opts g s n = true) (hex : opts.Extensions ≠ []) :
    contains opts.Extensions (goExt n) = true := by
  unfold keepFile at h
  split at h
  · exact absurd h (by simp)
  · split at h
    · exact absurd h (by simp)
    · rename_i h2
      have hlen : 0 < opts.Extensions.length := List.length_pos.mpr hex
      simp [hlen] at h2
      exact h2

/-- C4: a failure to access the root itself — `os.Lstat` failing, or the
root directory's own `ReadDir` failing (a root named `.git` is pruned before
it is ever read, so no access failure arises for it) — makes `GetSourceList`
return that error together with an empty result, for every options value. -/
theorem getSourceList_root_failure :
    (∀ (dir : String) (options : Option GetSourceListOptions)
        (lib : String → Option (String → Bool)),
        GetSourceList dir none options lib = ([], some GoError.rootAccessError))
  ∧ (∀ (dir n : String) (options : Option GetSourceListOptions)
        (lib : String → Option (String → Bool)), n ≠ ".git" →
        GetSourceList dir (some (FSTree.badDir n)) options lib
          = ([], some (GoError.readDirError []))) := by
  constructor
  · intro dir options lib
    rfl
  · intro dir n options lib hn
    simp [GetSourceList, scanRoot, hn]

/-- Witness for C4 at a concrete unreadable root. -/
theorem getSourceList_root_failure_witness :
    GetSourceList "root" (some (FSTree.badDir "bad")) none (fun _ => none)
      = ([], some (GoError.readDirError [])) :=
  getSourceList_root_failure.2 "root" "bad" none (fun _ => none) (by decide)

/-- C8: omitted options behave exactly like the default record
(`RespectGitignore := true`, `IncludeHidden := false`, no extensions, no
custom ignore path), and with an empty `GitignoreFilePath` and
`RespectGitignore` set the rules are compiled from
`filepath.Join(root, ".gitignore")`. -/
theorem getSourceList_nil_options_defaults :
    (∀ (dir : String) (root : Option FSTree) (lib : String → Option (String → Bool)),
        GetSourceList dir root none lib
          = GetSourceList dir root (some defaultGetSourceListOptions) lib)
  ∧ (∀ (dir : String) (opts : GetSourceListOptions) (lib : String → Option (String → Bool)),
        opts.GitignoreFilePath = "" → opts.RespectGitignore = true →
        resolvedGitignorePath dir opts = goJoin2 dir ".gitignore" ∧
        resolvedMatcher dir opts lib
          = some ((lib (goJoin2 dir ".gitignore")).getD (fun _ => false))) := by
  constructor
  · intro dir root lib
    rfl
  · intro dir opts lib h1 h2
    have hp : resolvedGitignorePath dir opts = goJoin2 dir ".gitignore" := by
      simp [resolvedGitignorePath, h1]
    exact ⟨hp, by simp [resolvedMatcher, h2, hp]⟩

/-- Witness for C8 at concrete options with an empty custom path. -/
theorem getSourceList_nil_options_defaults_witness :
    resolvedGitignorePath "root" defaultGetSourceListOptions = goJoin2 "root" ".gitignore" ∧
    resolvedMatcher "root" defaultGetSourceListOptions (fun _ => none)
      = some (((fun _ => none : String → Option (String → Bool))
          (goJoin2 "root" ".gitignore")).getD (fun _ => false)) :=
  getSourceList_nil_options_defaults.2 "root" defaultGetSourceListOptions
    (fun _ => none) rfl rfl

/-- C3: no collected path lies under a directory named `.git` (no non-final
segment is `.git`), and a root directory named `.git` yields no paths at
all, for every tree, option value and matcher. -/
theorem getSourceList_never_under_git :
    (∀ (dir : String) (root : Option FSTree) (options : Option GetSourceListOptions)
        (lib : String → Option (String → Bool)) (p : List String),
        p ∈ (GetSourceList dir root options lib).1 → ".git" ∉ p.dropLast)
  ∧ (∀ (dir : String) (entries : FSForest) (options : Option GetSourceListOptions)
        (lib : String → Option (String → Bool)),
        (GetSourceList dir (some (FSTree.dir ".git" entries)) options lib).1 = []) := by
  constructor
  · intro dir root options lib p hp
    obtain ⟨relStr, n, _, _, hng⟩ := scanRoot_mem _ root p hp
    exact hng
  · intro dir entries options lib
    rfl

/-- Witness for C3: a concrete scan produces `["sub", "f.go"]`, whose
directory part avoids `.git`. -/
theorem getSourceList_never_under_git_witness :
    ".git" ∉ (["sub", "f.go"] : List String).dropLast :=
  getSourceList_never_under_git.1 "root"
    (some (FSTree.dir "r" (FSForest.cons
      (FSTree.dir "sub" (FSForest.cons (FSTree.file "f.go") FSForest.nil)) FSForest.nil)))
    none (fun _ => none) ["sub", "f.go"] (by decide)

/-- C5: with `IncludeHidden = false` (explicitly or by default), no collected
path's base name starts with a dot. -/
theorem getSourceList_hidden_filter :
    ∀ (dir : String) (root : Option FSTree) (options : Option GetSourceListOptions)
      (lib : String → Option (String → Bool)) (p : List String),
      (effectiveOptions options).IncludeHidden = false →
      p ∈ (GetSourceList dir root options lib).1 →
      goHasPrefix (baseName p) "." = false := by
  intro dir root options lib p hih hp
  obtain ⟨relStr, n, hbn, hk, _⟩ := scanRoot_mem _ root p hp
  rw [hbn]
  exact keepFile_hidden _ _ _ _ hk hih

/-- Witness for C5 at a concrete scan with default options. -/
theorem getSourceList_hidden_filter_witness :
    goHasPrefix (baseName ["a.go"]) "." = false :=
  getSourceList_hidden_filter "root"
    (some (FSTree.dir "r" (FSForest.cons (FSTree.file ".env")
      (FSForest.cons (FSTree.file "a.go") FSForest.nil))))
    none (fun _ => none) ["a.go"] rfl (by decide)

/-- C6: with a non-empty extension list, every collected path's extension
(the suffix of the base name from the last dot, `""` when there is none) is
a member of the list under exact string equality. -/
theorem getSourceList_extension_filter :
    ∀ (dir : String) (root : Option FSTree) (options : Option GetSourceListOptions)
      (lib : String → Option (String → Bool)) (p : List String),
      (effectiveOptions options).Extensions ≠ [] →
      p ∈ (GetSourceList dir root options lib).1 →
      contains (effectiveOptions options).Extensions (goExt (baseName p)) = true := by
  intro dir root options lib p hex hp
  obtain ⟨relStr, n, hbn, hk, _⟩ := scanRoot_mem _ root p hp
  rw [hbn]
  exact keepFile_ext _ _ _ _ hk hex

/-- Witness for C6 at a concrete scan with `Extensions = [".go"]`. -/
theorem getSourceList_extension_filter_witness :
    contains (effectiveOptions (some goOnlyOptions)).Extensions
      (goExt (baseName ["a.go"])) = true :=
  getSourceList_extension_filter "root"
    (some (FSTree.dir "r" (FSForest.cons (FSTree.file "a.go")
      (FSForest.cons (FSTree.file "b.txt") FSForest.nil))))
    (some goOnlyOptions)
    (fun _ => none) ["a.go"] (by decide) (by decide)

/-- C7: when `RespectGitignore` is on but the resolved ignore file fails to
load (`CompileIgnoreFile` errors), the scan proceeds with the empty matcher
and returns — paths and error alike — exactly what the same scan with ignore
rules disabled returns. -/
theorem getSourceList_ignore_load_never_fails :
    ∀ (dir : String) (root : Option FSTree) (options : Option GetSourceListOptions)
      (lib : String → Option (String → Bool)),
      (effectiveOptions options).RespectGitignore = true →
      lib (resolvedGitignorePath dir (effectiveOptions options)) = none →
      GetSourceList dir root options lib
        = GetSourceList dir root
            (some { effectiveOptions options with RespectGitignore := false }) lib := by
  intro dir root options lib hr hl
  show scanRoot _ root = scanRoot _ root
  apply scanRoot_congr
  intro s n
  have hm1 : resolvedMatcher dir (effectiveOptions options) lib
      = some (fun _ => false) := by
    simp [resolvedMatcher, hr, hl]
  have hm2 : resolvedMatcher dir { effectiveOptions options with RespectGitignore := false } lib
      = none := by
    simp [resolvedMatcher]
  show keepFile (effectiveOptions options)
      (resolvedMatcher dir (effectiveOptions options) lib) s n
    = keepFile (effectiveOptions (some { effectiveOptions options with RespectGitignore := false }))
      (resolvedMatcher dir (effectiveOptions (some { effectiveOptions options with RespectGitignore := false })) lib) s n
  simp only [effectiveOptions] at *
  rw [hm1, hm2]
  simp [keepFile]

/-- Witness for C7: a missing ignore file leaves a concrete scan equal to
the ignore-free scan. -/
theorem getSourceList_ignore_load_never_fails_witness :
    GetSourceList "root"
      (some (FSTree.dir "r" (FSForest.cons (FSTree.file "a.go") FSForest.nil)))
      none (fun _ => none)
    = GetSourceList "root"
      (some (FSTree.dir "r" (FSForest.cons (FSTree.file "a.go") FSForest.nil)))
      (some { effectiveOptions none with RespectGitignore := false }) (fun _ => none) :=
  getSourceList_ignore_load_never_fails "root"
    (some (FSTree.dir "r" (FSForest.cons (FSTree.file "a.go") FSForest.nil)))
    none (fun _ => none) rfl rfl

/-- C10: the hidden-entry filter looks only at a file's own base name — a
dot-named directory other than `.git` is still descended into, and a
non-hidden file inside it that passes the extension and ignore filters is
collected even with `IncludeHidden = false`. -/
theorem hidden_dir_descended :
    ∀ (dir : String) (lib : String → Option (String → Bool)) (opts : GetSourceListOptions)
      (rootName hd fn : String),
      opts.IncludeHidden = false →
      rootName ≠ ".git" →
      goHasPrefix hd "." = true → hd ≠ ".git" →
      goHasPrefix fn "." = false →
      (opts.Extensions = [] ∨ contains opts.Extensions (goExt fn) = true) →
      (∀ m, resolvedMatcher dir opts lib = some m → m (goJoin [hd, fn]) = false) →
      [hd, fn] ∈ (GetSourceList dir
          (some (FSTree.dir rootName (FSForest.cons
            (FSTree.dir hd (FSForest.cons (FSTree.file fn) FSForest.nil)) FSForest.nil)))
          (some opts) lib).1 := by
  intro dir lib opts rootName hd fn hih hroot _hhd hgit hfn hext hm
  have hkeep : keepFile opts (resolvedMatcher dir opts lib) (goJoin ([] ++ [hd] ++ [fn])) fn
      = true := by
    unfold keepFile
    rw [if_neg (by simp [hih, hfn])]
    rw [if_neg ?hc]
    case hc =>
      cases hext with
      | inl h => simp [h]
      | inr h => simp [h]
    cases hmm : resolvedMatcher dir opts lib with
    | none => rfl
    | some m =>
        have := hm m hmm
        simp only [List.nil_append] at this
        simp [this]
  show [hd, fn] ∈ (scanRoot
      (fun relStr name => keepFile (effectiveOptions (some opts))
        (resolvedMatcher dir (effectiveOptions (some opts)) lib) relStr name)
      (some (FSTree.dir rootName (FSForest.cons
        (FSTree.dir hd (FSForest.cons (FSTree.file fn) FSForest.nil)) FSForest.nil)))).1
  simp only [scanRoot, effectiveOptions, if_neg hroot, walkForest, walkNode, if_neg hgit]
  simp only [List.nil_append] at hkeep ⊢
  rw [if_pos hkeep]
  simp

/-- Witness for C10: a dot-named directory's file appears in a concrete
default scan. -/
theorem hidden_dir_descended_witness :
    [".config", "a.go"] ∈ (GetSourceList "root"
        (some (FSTree.dir "r" (FSForest.cons
          (FSTree.dir ".config" (FSForest.cons (FSTree.file "a.go") FSForest.nil)) FSForest.nil)))
        (some defaultGetSourceListOptions) (fun _ => none)).1 :=
  hidden_dir_descended "root" (fun _ => none) defaultGetSourceListOptions "r" ".config" "a.go"
    rfl (by decide) (by decide) (by decide) (by decide) (Or.inl rfl)
    (fun m hmm => by
      have h2 : (some (fun _ => false) : Option (String → Bool)) = some m := hmm
      rw [← Option.some.inj h2])

/-- C1 counterexample: a mid-walk `ReadDir` failure after one collected file
makes `GetSourceList` return that file alongside the error — the result
sequence is not empty, contradicting the claim that collected paths are
discarded. -/
theorem midwalk_error_counterexample :
    GetSourceList "root"
      (some (FSTree.dir "r" (FSForest.cons (FSTree.file "a.go")
        (FSForest.cons (FSTree.badDir "bad") FSForest.nil))))
      (some { RespectGitignore := false, IncludeHidden := false, Extensions := [], GitignoreFilePath := "" })
      (fun _ => none)
    = ([["a.go"]], some (GoError.readDirError ["bad"]))
    ∧ ([["a.go"]] : List (List String)) ≠ [] := by
  decide

/-- C1 amended: a mid-walk read error aborts the scan and surfaces that
error, but the file paths collected before the error are returned alongside
it rather than discarded: any scan's collected paths are a prefix of the
scan of the tree with every unreadable directory replaced by an empty one,
that healed scan has no error, and an error-free scan is unchanged by the
replacement. -/
theorem midwalk_error_returns_partial_results :
    ∀ (dir : String) (t : FSTree) (options : Option GetSourceListOptions)
      (lib : String → Option (String → Bool)),
      (GetSourceList dir (some (healTree t)) options lib).2 = none ∧
      ((GetSourceList dir (some t) options lib).2 = none →
        GetSourceList dir (some t) options lib
          = GetSourceList dir (some (healTree t)) options lib) ∧
      (GetSourceList dir (some t) options lib).1
        <+: (GetSourceList dir (some (healTree t)) options lib).1 :=
  fun _dir t _options _lib => scanRoot_heal _ t

/-- Witness for C1 amended: the prefix property at the erroring tree, and
the equal-scan property at an error-free tree. -/
theorem midwalk_error_returns_partial_results_witness :
    (GetSourceList "root"
        (some (FSTree.dir "r" (FSForest.cons (FSTree.file "a.go")
          (FSForest.cons (FSTree.badDir "bad") FSForest.nil))))
        none (fun _ => none)).1
      <+: (GetSourceList "root"
        (some (healTree (FSTree.dir "r" (FSForest.cons (FSTree.file "a.go")
          (FSForest.cons (FSTree.badDir "bad") FSForest.nil)))))
        none (fun _ => none)).1
    ∧ GetSourceList "root" (some (FSTree.dir "r" (FSForest.cons (FSTree.file "a.go") FSForest.nil)))
        none (fun _ => none)
      = GetSourceList "root"
        (some (healTree (FSTree.dir "r" (FSForest.cons (FSTree.file "a.go") FSForest.nil))))
        none (fun _ => none) :=
  ⟨(midwalk_error_returns_partial_results "root"
      (FSTree.dir "r" (FSForest.cons (FSTree.file "a.go")
        (FSForest.cons (FSTree.badDir "bad") FSForest.nil))) none (fun _ => none)).2.2,
   (midwalk_error_returns_partial_results "root"
      (FSTree.dir "r" (FSForest.cons (FSTree.file "a.go") FSForest.nil))
      none (fun _ => none)).2.1 (by decide)⟩

/-- C2: a rule beginning with `!` never matches any path in the simplified
matcher, so `isIgnored` — and with it the whole rule-driven scan — is
unchanged when negated rules are removed from the rule list. -/
theorem negated_rules_inert :
    (∀ (goMatch : String → String → Bool) (filePath rule : String),
        goHasPrefix rule "!" = true →
        matchesGitignoreRule goMatch filePath rule = false)
  ∧ (∀ (goMatch : String → String → Bool) (relPath : String) (rules : List String),
        isIgnored goMatch relPath rules
          = isIgnored goMatch relPath (rules.filter (fun r => !goHasPrefix r "!")))
  ∧ (∀ (goMatch : String → String → Bool) (root : Option FSTree)
        (opts : SimpleGetSourceListOptions) (rules : List String),
        scanWithRules goMatch root opts rules
          = scanWithRules goMatch root opts (rules.filter (fun r => !goHasPrefix r "!"))) := by
  have h1 : ∀ (goMatch : String → String → Bool) (filePath rule : String),
      goHasPrefix rule "!" = true → matchesGitignoreRule goMatch filePath rule = false := by
    intro gm filePath rule h
    simp [matchesGitignoreRule, h]
  have h2 : ∀ (goMatch : String → String → Bool) (relPath : String) (rules : List String),
      isIgnored goMatch relPath rules
        = isIgnored goMatch relPath (rules.filter (fun r => !goHasPrefix r "!")) := by
    intro gm relPath rules
    induction rules with
    | nil => rfl
    | cons r rs ih =>
        cases hr : goHasPrefix r "!" with
        | true =>
            have hmr := h1 gm relPath r hr
            simp [isIgnored, List.any_cons, List.filter_cons, hr, hmr] at ih ⊢
            exact ih
        | false =>
            simp [isIgnored, List.any_cons, List.filter_cons, hr] at ih ⊢
            rw [ih]
  refine ⟨h1, h2, ?_⟩
  intro gm root opts rules
  apply scanRoot_congr
  intro s n
  simp only [simplifiedKeep, h2 gm s rules]

/-- Witness for C2: a concrete negated rule matches nothing. -/
theorem negated_rules_inert_witness :
    matchesGitignoreRule (fun _ _ => false) "a/b" "!a" = false :=
  negated_rules_inert.1 (fun _ _ => false) "a/b" "!a" (by decide)

theorem splitChars_no_sep (sep : Char) :
    ∀ cs : List Char, ∀ p ∈ splitChars sep cs, sep ∉ p := by
  intro cs
  induction cs with
  | nil =>
      intro p hp
      simp [splitChars] at hp
      simp [hp]
  | cons c cs ih =>
      intro p hp
      simp only [splitChars] at hp
      by_cases hc : c = sep
      · rw [if_pos hc] at hp
        cases hp with
        | head => simp
        | tail _ hp => exact ih p hp
      · rw [if_neg hc] at hp
        cases hq : splitChars sep cs with
        | nil => exact absurd hq (splitChars_ne_nil sep cs)
        | cons q qs =>
            rw [hq] at hp
            cases hp with
            | head =>
                intro hmem
                cases hmem with
                | head => exact hc rfl
                | tail _ hmem => exact ih q (by rw [hq]; exact List.mem_cons_self q qs) hmem
            | tail _ hp => exact ih p (by rw [hq]; exact List.mem_cons_of_mem q hp)

theorem goSplit_no_sep (s : String) : ∀ part ∈ goSplit s, '/' ∉ part.data := by
  intro part hp
  rw [goSplit] at hp
  obtain ⟨p, hpmem, hpeq⟩ := List.mem_map.mp hp
  rw [← hpeq]
  exact splitChars_no_sep '/' s.data p hpmem

theorem takeWhile_append_stop (p : Char → Bool) :
    ∀ (u : List Char) (v0 : Char) (vs : List Char),
      (∀ c ∈ u, p c = true) → p v0 = false →
      (u ++ v0 :: vs).takeWhile p = u := by
  intro u
  induction u with
  | nil =>
      intro v0 vs _ hv
      simp [List.takeWhile_cons, hv]
  | cons a u ih =>
      intro v0 vs hu hv
      have ha : p a = true := hu a (List.mem_cons_self a u)
      rw [List.cons_append, List.takeWhile_cons, if_pos ha,
        ih v0 vs (fun c hc => hu c (List.mem_cons_of_mem a hc)) hv]

theorem takeWhile_all (p : Char → Bool) :
    ∀ u : List Char, (∀ c ∈ u, p c = true) → u.takeWhile p = u := by
  intro u
  induction u with
  | nil => intro _; rfl
  | cons a u ih =>
      intro hu
      rw [List.takeWhile_cons, if_pos (hu a (List.mem_cons_self a u)),
        ih (fun c hc => hu c (List.mem_cons_of_mem a hc))]

theorem string_mk_ne_empty (l : List Char) (h : l ≠ []) : String.mk l ≠ "" := by
  intro he
  have := congrArg String.data he
  exact h this

/-- `filepath.Base` of a separator-free non-empty name is the name itself. -/
theorem goBase_single (x : String) (hx : x ≠ "") (hs : '/' ∉ x.data) : goBase x = x := by
  have hxd : x.data ≠ [] := by
    intro h
    exact hx (String.ext h)
  obtain ⟨c, cs, hcs⟩ : ∃ c cs, x.data.reverse = c :: cs := by
    cases hcx : x.data.reverse with
    | nil => exact absurd (by simpa using congrArg List.reverse hcx) hxd
    | cons c cs => exact ⟨c, cs, rfl⟩
  have hc : c ≠ '/' := by
    intro h
    subst h
    exact hs (List.mem_reverse.mp (by rw [hcs]; exact List.mem_cons_self _ _))
  have hdrop : dropTrailingSep x.data = x.data := by
    unfold dropTrailingSep
    rw [hcs, List.dropWhile_cons, if_neg (by simp [hc]), ← hcs, List.reverse_reverse]
  have hlast : lastComponent x.data = x.data := by
    unfold lastComponent
    rw [takeWhile_all _ _ (by
      intro d hd
      have : d ∈ x.data := List.mem_reverse.mp hd
      simp
      intro hde
      exact hs (hde ▸ this))]
    exact List.reverse_reverse _
  unfold goBase
  rw [if_neg hx]
  simp only [hdrop, hlast]
  rw [if_neg hxd]

/-- `filepath.Base` after a separator: only the final separator-free
component survives. -/
theorem goBase_concat (pre : List Char) (x : String) (hx : x ≠ "") (hs : '/' ∉ x.data) :
    goBase (String.mk (pre ++ '/' :: x.data)) = x := by
  have hxd : x.data ≠ [] := by
    intro h
    exact hx (String.ext h)
  obtain ⟨c, cs, hcs⟩ : ∃ c cs, x.data.reverse = c :: cs := by
    cases hcx : x.data.reverse with
    | nil => exact absurd (by simpa using congrArg List.reverse hcx) hxd
    | cons c cs => exact ⟨c, cs, rfl⟩
  have hc : c ≠ '/' := by
    intro h
    subst h
    exact hs (List.mem_reverse.mp (by rw [hcs]; exact List.mem_cons_self _ _))
  have hrev : (pre ++ '/' :: x.data).reverse = x.data.reverse ++ '/' :: pre.reverse := by
    rw [List.reverse_append, List.reverse_cons, List.append_assoc]
    rfl
  have hwhole : (String.mk (pre ++ '/' :: x.data)).data = pre ++ '/' :: x.data := rfl
  have hne : String.mk (pre ++ '/' :: x.data) ≠ "" :=
    string_mk_ne_empty _ (by simp)
  have hdrop : dropTrailingSep (pre ++ '/' :: x.data) = pre ++ '/' :: x.data := by
    unfold dropTrailingSep
    rw [hrev, hcs, List.cons_append, List.dropWhile_cons, if_neg (by simp [hc]),
      ← List.cons_append, ← hcs, ← hrev, List.reverse_reverse]
  have hlast : lastComponent (pre ++ '/' :: x.data) = x.data := by
    unfold lastComponent
    rw [hrev, takeWhile_append_stop _ _ _ _ (by
        intro d hd
        have : d ∈ x.data := List.mem_reverse.mp hd
        simp
        intro hde
        exact hs (hde ▸ this))
      (by simp), List.reverse_reverse]
  unfold goBase
  rw [if_neg hne]
  simp only [hwhole, hdrop, hlast]
  rw [if_neg (by simp)]

theorem goJoin_concat_data :
    ∀ (l : List String) (x : String), l ≠ [] →
      (goJoin (l ++ [x])).data = (goJoin l).data ++ '/' :: x.data := by
  intro l
  induction l with
  | nil => intro x h; exact absurd rfl h
  | cons a l ih =>
      intro x _
      cases l with
      | nil =>
          show (a ++ "/" ++ x).data = a.data ++ '/' :: x.data
          rw [String.data_append, String.data_append]
          have hsd : ("/" : String).data = ['/'] := rfl
          rw [hsd, List.append_assoc]
          rfl
      | cons b l' =>
          have hih := ih x (by simp)
          rw [List.cons_append] at hih
          show (goJoin (a :: ((b :: l') ++ [x]))).data = (goJoin (a :: b :: l')).data ++ '/' :: x.data
          rw [List.cons_append]
          show (a ++ "/" ++ goJoin (b :: (l' ++ [x]))).data
            = (a ++ "/" ++ goJoin (b :: l')).data ++ '/' :: x.data
          rw [String.data_append, String.data_append, String.data_append, String.data_append,
            hih]
          simp

/-- `filepath.Base(strings.Join(parts[:i+1], "/"))` is `parts[i]` whenever
the parts are non-empty and separator-free. -/
theorem goBase_goJoin_take (parts : List String) (i : Nat) (hi : i < parts.length)
    (hp : ∀ p ∈ parts, p ≠ "" ∧ '/' ∉ p.data) :
    goBase (goJoin (parts.take (i + 1))) = parts[i] := by
  have hx := hp parts[i] (parts.getElem_mem hi)
  have htake : parts.take (i + 1) = parts.take i ++ [parts[i]] := by
    rw [List.take_succ, List.getElem?_eq_getElem hi]
    rfl
  rw [htake]
  cases hti : parts.take i with
  | nil =>
      simp only [List.nil_append]
      exact goBase_single _ hx.1 hx.2
  | cons a l =>
      rw [← hti]
      have hdata := goJoin_concat_data (parts.take i) parts[i] (by rw [hti]; simp)
      have hstr : goJoin (parts.take i ++ [parts[i]])
          = String.mk ((goJoin (parts.take i)).data ++ '/' :: parts[i].data) :=
        String.ext hdata
      rw [hstr]
      exact goBase_concat _ _ hx.1 hx.2

/-- C9 counterexample: the rule `"!a/"` ends in `/` and, with its trailing
slash stripped, equals the first segment of the path `"!a/x"`, yet the
matcher reports no match (the negation branch fires first) — so the claim's
equivalence fails for rules that also begin with `!`. -/
theorem dir_rule_claim_counterexample :
    goHasSuffix "!a/" "/" = true ∧
    ¬((matchesGitignoreRule (fun _ _ => false) "!a/x" "!a/" = true) ↔
      ∃ i, i < (goSplit "!a/x").length ∧
        (goJoin ((goSplit "!a/x").take (i + 1)) = trimSuffix "!a/" "/" ∨
         (goSplit "!a/x")[i]? = some (trimSuffix "!a/" "/"))) := by
  decide

/-- C9 amended: for every rule that ends in `/` and does not begin with `!`,
and every candidate relative path with non-empty segments, the simplified
matcher matches exactly when some segment prefix of the path — the joined
prefix itself or its final segment — equals the rule with its trailing slash
stripped; no glob expansion is involved. -/
theorem dir_rule_segment_iff :
    ∀ (goMatch : String → String → Bool) (filePath rule : String),
      goHasSuffix rule "/" = true →
      goHasPrefix rule "!" = false →
      (∀ part ∈ goSplit filePath, part ≠ "") →
      (matchesGitignoreRule goMatch filePath rule = true ↔
        ∃ i, i < (goSplit filePath).length ∧
          (goJoin ((goSplit filePath).take (i + 1)) = trimSuffix rule "/" ∨
           (goSplit filePath)[i]? = some (trimSuffix rule "/"))) := by
  intro gm path rule hs hn hwf
  have hprops : ∀ p ∈ goSplit path, p ≠ "" ∧ '/' ∉ p.data :=
    fun p hp => ⟨hwf p hp, goSplit_no_sep path p hp⟩
  simp only [matchesGitignoreRule]
  rw [if_neg (by simp [hn]), if_pos hs]
  rw [List.any_eq_true]
  constructor
  · rintro ⟨i, hi, hpred⟩
    rw [List.mem_range] at hi
    simp only [Bool.or_eq_true, beq_iff_eq] at hpred
    refine ⟨i, hi, ?_⟩
    cases hpred with
    | inl h => exact Or.inl h
    | inr h =>
        right
        rw [List.getElem?_eq_getElem hi]
        rw [goBase_goJoin_take _ i hi hprops] at h
        rw [h]
  · rintro ⟨i, hi, hor⟩
    refine ⟨i, List.mem_range.mpr hi, ?_⟩
    simp only [Bool.or_eq_true, beq_iff_eq]
    cases hor with
    | inl h => exact Or.inl h
    | inr h =>
        right
        rw [goBase_goJoin_take _ i hi hprops]
        rw [List.getElem?_eq_getElem hi] at h
        exact Option.some.inj h

/-- Witness for C9 amended at the rule `"b/"` and path `"a/b/c"`. -/
theorem dir_rule_segment_iff_witness :
    matchesGitignoreRule (fun _ _ => false) "a/b/c" "b/" = true :=
  (dir_rule_segment_iff (fun _ _ => false) "a/b/c" "b/" (by decide) (by decide)
    (by decide)).mpr ⟨1, by decide, Or.inr (by decide)⟩
